import Mathlib

/-!
Shallow embedding of `src/experimentations/vrf/biscuit-vrf/src/second.rs`:
an appendable, aggregatable VRF-based signature chain over a prime-order
group.  The group/field primitives and the transcript hashes
(`ECVRF_hash_to_curve`, `ECVRF_hash_points`, `ECVRF_nonce`, `add_points`,
the ristretto255 basepoint) live in the crate's `lib.rs` and in
`curve25519-dalek`, outside the given sources; they are modelled from the
spec (§6) as parameters bundled in `Prims`.  A prime-order group together
with its scalar field is modelled as `ZMod q` (scalar multiplication is
ring multiplication, the group generator an arbitrary element `g`,
`RistrettoPoint::identity()` is `0`, `Scalar::reduce` is the identity
since `ZMod q` is already reduced).  Byte strings are `List ℕ`.
Fallible code is modelled with `Option`: `TokenSignature::verify` can
panic on `.last().unwrap()`, so its embedding returns `Option Bool`,
`none` standing for the panic.
-/

namespace BiscuitVRF

/-- Byte strings (`Vec<u8>` / `&[u8]`) are modelled as lists of naturals. -/
abbrev Msg : Type := List ℕ

/-- Modelled from the spec: the external collaborators of §6, missing from
the given sources (`lib.rs` and `curve25519-dalek`): the group generator
(`RISTRETTO_BASEPOINT_POINT`), `HashToCurve` (`ECVRF_hash_to_curve`),
`HashToScalar` (`ECVRF_hash_points`, taking an ordered list of group
elements) and `DeriveNonce` (`ECVRF_nonce`).  All are deterministic
functions, as §6 requires. -/
structure Prims (q : ℕ) where
  g : ZMod q
  hashToCurve : ZMod q → Msg → ZMod q
  hashPoints : List (ZMod q) → ZMod q
  nonce : ZMod q → ZMod q → ZMod q

/-- Modelled from the spec: `add_points` from `lib.rs`, the sum of a list
of group elements (the identity element for the empty list). -/
def add_points {q : ℕ} (l : List (ZMod q)) : ZMod q := l.sum

/-- `Scalar::reduce`: reduction mod the group order.  On `ZMod q` every
element is already reduced, so this is the identity. -/
def reduce {q : ℕ} (x : ZMod q) : ZMod q := x

/-- `KeyPair { private, public }` (second.rs lines 15-18).  `private` is a
Lean keyword, hence the field names `priv`/`pub`. -/
structure KeyPair (q : ℕ) where
  priv : ZMod q
  pub : ZMod q

/-- `KeyPair::new` draws a random scalar and sets `public = private *
RISTRETTO_BASEPOINT_POINT`; the random draw is made explicit as the
argument `x`. -/
def KeyPair.new {q : ℕ} (P : Prims q) (x : ZMod q) : KeyPair q :=
  { priv := x, pub := x * P.g }

/-- The invariant `public = private * Generator` guaranteed by
`KeyPair::new` (spec §3). -/
def KeyPair.wf {q : ℕ} (kp : KeyPair q) (P : Prims q) : Prop :=
  kp.pub = kp.priv * P.g

/-- `TokenSignature { gamma_agg, c, w, s }` (second.rs lines 66-71). -/
structure TokenSignature (q : ℕ) where
  gamma_agg : ZMod q
  c : List (ZMod q)
  w : ZMod q
  s : ZMod q

/-- `Token { messages, keys, signature }` (second.rs lines 29-33). -/
structure Token (q : ℕ) where
  messages : List Msg
  keys : List (ZMod q)
  signature : TokenSignature q

/-- `TokenSignature::new` (second.rs lines 74-90). -/
def TokenSignature.new {q : ℕ} (P : Prims q) (keypair : KeyPair q)
    (message : Msg) : TokenSignature q :=
  let h := P.hashToCurve keypair.pub message
  let gamma := keypair.priv * h
  let k := P.nonce keypair.priv h
  let c := P.hashPoints [h, keypair.pub, k * P.g, k * h]
  let s := reduce (k + c * keypair.priv)
  let w : ZMod q := 0
  { gamma_agg := (-c) * gamma
    c := [c]
    w := w
    s := s }

/-- `TokenSignature::sign` (second.rs lines 92-127). -/
def TokenSignature.sign {q : ℕ} (sig : TokenSignature q) (P : Prims q)
    (public_keys : List (ZMod q)) (messages : List Msg)
    (keypair : KeyPair q) (message : Msg) : TokenSignature q :=
  let h := P.hashToCurve keypair.pub message
  let gamma := keypair.priv * h
  let k := P.nonce keypair.priv h
  let pc := (public_keys.zip sig.c).map fun x => x.1 * (-x.2)
  let u := add_points pc + sig.s * P.g + k * P.g
  let hashes := (messages.zip public_keys).map fun x => P.hashToCurve x.2 x.1
  let hashes_sum := add_points hashes
  let v := sig.w + sig.gamma_agg + sig.s * hashes_sum + k * h
  let p := add_points public_keys
  let c := P.hashPoints [h, p + keypair.pub, u, v]
  let s := reduce (k + c * keypair.priv)
  let agg_s := reduce (sig.s + s)
  let hs := hashes_sum * (-s)
  let w := sig.w + hs + h * (-sig.s)
  { gamma_agg := sig.gamma_agg + (-c) * gamma
    c := sig.c ++ [c]
    w := w
    s := agg_s }

/-- `TokenSignature::verify` (second.rs lines 129-150).  The source
unwraps `hashes.last()` and `self.c.last()`, which panics when the list
is empty; the embedding returns `none` exactly there, `some b` where the
source returns `b`. -/
def TokenSignature.verify {q : ℕ} (sig : TokenSignature q) (P : Prims q)
    (public_keys : List (ZMod q)) (messages : List Msg) : Option Bool :=
  if ¬(public_keys.length = messages.length
       ∧ public_keys.length = sig.c.length) then
    some false
  else
    let pc := (public_keys.zip sig.c).map fun x => x.1 * (-x.2)
    let u := add_points pc + sig.s * P.g
    let hashes := (messages.zip public_keys).map fun x => P.hashToCurve x.2 x.1
    let hashes_sum := add_points hashes
    let v := sig.w + sig.gamma_agg + sig.s * hashes_sum
    let p := add_points public_keys
    match hashes.getLast?, sig.c.getLast? with
    | some hLast, some cLast => some (decide (P.hashPoints [hLast, p, u, v] = cLast))
    | _, _ => none

/-- `Token::new` (second.rs lines 36-44). -/
def Token.new {q : ℕ} (P : Prims q) (keypair : KeyPair q) (message : Msg) :
    Token q :=
  { messages := [message]
    keys := [keypair.pub]
    signature := TokenSignature.new P keypair message }

/-- `Token::append` (second.rs lines 46-59): signs over the prior chain,
clones the sequences and pushes the new message and public key. -/
def Token.append {q : ℕ} (t : Token q) (P : Prims q) (keypair : KeyPair q)
    (message : Msg) : Token q :=
  { messages := t.messages ++ [message]
    keys := t.keys ++ [keypair.pub]
    signature := t.signature.sign P t.keys t.messages keypair message }

/-- `Token::verify` (second.rs lines 61-63). -/
def Token.verify {q : ℕ} (t : Token q) (P : Prims q) : Option Bool :=
  t.signature.verify P t.keys t.messages

/-- The `create` recipe written from the spec's words (§4.2 steps 1-6),
to be compared with `TokenSignature.new`, which is written from the
source. -/
def createSpec {q : ℕ} (P : Prims q) (keyPair : KeyPair q) (message : Msg) :
    TokenSignature q :=
  let h := P.hashToCurve keyPair.pub message
  let gamma := keyPair.priv * h
  let k := P.nonce keyPair.priv h
  let c0 := P.hashPoints [h, keyPair.pub, k * P.g, k * h]
  let s0 := k + c0 * keyPair.priv
  { gamma_agg := (-c0) * gamma
    c := [c0]
    w := 0
    s := s0 }

/-- The `append` recipe written from the spec's words (§4.2 steps 1-8),
to be compared with `TokenSignature.sign`, which is written from the
source. -/
def appendSpec {q : ℕ} (prior : TokenSignature q) (P : Prims q)
    (priorKeys : List (ZMod q)) (priorMessages : List Msg)
    (keyPair : KeyPair q) (newMessage : Msg) : TokenSignature q :=
  let h := P.hashToCurve keyPair.pub newMessage
  let gamma := keyPair.priv * h
  let k := P.nonce keyPair.priv h
  let pcs := (priorKeys.zip prior.c).map fun x => x.1 * (-x.2)
  let u := add_points pcs + prior.s * P.g + k * P.g
  let hashesSum :=
    add_points ((priorMessages.zip priorKeys).map fun x => P.hashToCurve x.2 x.1)
  let v := prior.w + prior.gamma_agg + prior.s * hashesSum + k * h
  let p := add_points priorKeys
  let cNew := P.hashPoints [h, p + keyPair.pub, u, v]
  let sNew := k + cNew * keyPair.priv
  let aggS := prior.s + sNew
  let wNew := prior.w + hashesSum * (-sNew) + h * (-prior.s)
  { gamma_agg := prior.gamma_agg + (-cNew) * gamma
    c := prior.c ++ [cNew]
    w := wNew
    s := aggS }

/-- Length well-formedness of a token: its three sequences are
index-aligned (spec §3 invariant). -/
def Token.lenWf {q : ℕ} (t : Token q) : Prop :=
  t.keys.length = t.messages.length
    ∧ t.keys.length = t.signature.c.length

/-- Tokens reachable through the public constructors: `Token::new`
followed by any sequence of `Token::append` calls. -/
inductive Token.Reachable {q : ℕ} (P : Prims q) : Token q → Prop where
  | base (kp : KeyPair q) (m : Msg) : Token.Reachable P (Token.new P kp m)
  | step (t : Token q) (kp : KeyPair q) (m : Msg) :
      Token.Reachable P t → Token.Reachable P (t.append P kp m)

/-- Signatures reachable through the public API: `TokenSignature::new`,
or `TokenSignature::sign` applied to a reachable signature. -/
inductive TokenSignature.Reachable {q : ℕ} (P : Prims q) :
    TokenSignature q → Prop where
  | base (kp : KeyPair q) (m : Msg) :
      TokenSignature.Reachable P (TokenSignature.new P kp m)
  | step (sig : TokenSignature q) (keys : List (ZMod q)) (msgs : List Msg)
      (kp : KeyPair q) (m : Msg) :
      TokenSignature.Reachable P sig →
      TokenSignature.Reachable P (sig.sign P keys msgs kp m)

/-- The chain of the claims' roundtrip property: `Token::new` with the
first key pair and message, then one `Token::append` per later pair. -/
def Token.build {q : ℕ} (P : Prims q) (kp0 : KeyPair q) (m0 : Msg)
    (rest : List (KeyPair q × Msg)) : Token q :=
  rest.foldl (fun t x => t.append P x.1 x.2) (Token.new P kp0 m0)

/-! Concrete instantiation used to evaluate the embedding on explicit
inputs: the group of order 10007 with generator 3 and simple
deterministic stand-ins for the transcript hashes. -/

/-- A concrete primitives bundle over `ZMod 10007`. -/
def Pc : Prims 10007 :=
  { g := 3
    hashToCurve := fun p m => p * 31 + (m.foldl (fun a b => a * 7 + (b : ZMod 10007) + 1) 5)
    hashPoints := fun l => l.foldl (fun a x => a * 131 + x + 5) 11
    nonce := fun a b => a * 17 + b + 9 }

/-- Concrete key pair 1 (private scalar 2). -/
def kpW1 : KeyPair 10007 := KeyPair.new Pc 2

/-- Concrete key pair 2 (private scalar 5). -/
def kpW2 : KeyPair 10007 := KeyPair.new Pc 5

/-- Concrete key pair 3 (private scalar 7). -/
def kpW3 : KeyPair 10007 := KeyPair.new Pc 7

/-- The honest two-link token over messages `[1]` and `[2]`. -/
def token2W : Token 10007 := (Token.new Pc kpW1 [1]).append Pc kpW2 [2]

/-- `token2W` with its second stored message replaced by `[9]` without
recomputing the signature — the `tests::change_message` scenario. -/
def tamperedW : Token 10007 := { token2W with messages := [[1], [9]] }

/-- A further append on the tampered token, as in `tests::change_message`. -/
def token3W : Token 10007 := tamperedW.append Pc kpW3 [4]

/-- A malformed token (one message, no key, no challenge), used to
exercise `append` on an invalid chain. -/
def badTokenW : Token 10007 :=
  { messages := [[1]]
    keys := []
    signature := { gamma_agg := 0, c := [], w := 0, s := 0 } }

/-! Theorems. -/

theorem lenWf_new {q : ℕ} (P : Prims q) (kp : KeyPair q) (m : Msg) :
    (Token.new P kp m).lenWf := by
  simp [Token.new, Token.lenWf, TokenSignature.new]

theorem lenWf_append {q : ℕ} {t : Token q} (P : Prims q) (kp : KeyPair q)
    (m : Msg) (hw : t.lenWf) : (t.append P kp m).lenWf := by
  obtain ⟨h1, h2⟩ := hw
  simp [Token.append, Token.lenWf, TokenSignature.sign, h1, h2, h1 ▸ h2]

/-- C5: `TokenSignature::new` computes exactly the one-link aggregate of
the spec's `create` recipe: `gammaAgg = (-c0) * gamma`,
`challenges = [c0]`, `w = Identity`, `s = s0 = k + c0 * private` mod the
group order, with `c0 = HashToScalar([h, public, k*Generator, k*h])`. -/
theorem new_eq_createSpec {q : ℕ} (P : Prims q) (kp : KeyPair q) (m : Msg) :
    TokenSignature.new P kp m = createSpec P kp m := rfl

/-- C4: `TokenSignature::sign` computes exactly the aggregate of the
spec's `append` recipe: `u`, `v`, `c_new`, `s' = prior.s + (k +
c_new*private)`, `w' = prior.w + hashesSum*(-s_new) + h*(-prior.s)`,
`gammaAgg' = prior.gammaAgg + (-c_new)*gamma`, and
`challenges' = priorChallenges ++ [c_new]`. -/
theorem sign_eq_appendSpec {q : ℕ} (sig : TokenSignature q) (P : Prims q)
    (keys : List (ZMod q)) (msgs : List Msg) (kp : KeyPair q) (m : Msg) :
    sig.sign P keys msgs kp m = appendSpec sig P keys msgs kp m := rfl

/-- C6: whenever the lengths of the key sequence, the message sequence
and the stored challenge vector are not all equal (zero lengths
included), `TokenSignature::verify` returns `false` without panicking
(`some false`, never `none`, in the embedding). -/
theorem verify_length_mismatch {q : ℕ} (sig : TokenSignature q)
    (P : Prims q) (keys : List (ZMod q)) (msgs : List Msg)
    (h : ¬(keys.length = msgs.length ∧ keys.length = sig.c.length)) :
    sig.verify P keys msgs = some false := by
  unfold TokenSignature.verify
  rw [if_pos h]

theorem verify_length_mismatch_witness :
    (¬(([] : List (ZMod 10007)).length = [[1]].length
        ∧ ([] : List (ZMod 10007)).length = badTokenW.signature.c.length))
      ∧ badTokenW.signature.verify Pc [] [[1]] = some false :=
  ⟨by decide, verify_length_mismatch badTokenW.signature Pc [] [[1]] (by decide)⟩

/-- C8: `Token::append` is a pure function of the prior token: the prior
value is unchanged by construction in the embedding (the source takes
`&self` and clones), and the returned token's message and key sequences
are the prior ones followed by the new message and the new public key,
in that order. -/
theorem append_extends_sequences {q : ℕ} (t : Token q) (P : Prims q)
    (kp : KeyPair q) (m : Msg) :
    (t.append P kp m).messages = t.messages ++ [m]
      ∧ (t.append P kp m).keys = t.keys ++ [kp.pub] :=
  ⟨rfl, rfl⟩

/-- C10: `Token::append` performs no validity check on the prior chain:
even on a token whose `verify()` is `false`, it returns the structurally
extended token (messages and keys appended, one more challenge). -/
theorem append_no_validity_check {q : ℕ} (t : Token q) (P : Prims q)
    (kp : KeyPair q) (m : Msg) (_h : t.verify P = some false) :
    (t.append P kp m).messages = t.messages ++ [m]
      ∧ (t.append P kp m).keys = t.keys ++ [kp.pub]
      ∧ (t.append P kp m).signature.c.length = t.signature.c.length + 1 :=
  ⟨rfl, rfl, by simp [Token.append, TokenSignature.sign]⟩

theorem append_no_validity_check_witness :
    badTokenW.verify Pc = some false
      ∧ ((badTokenW.append Pc kpW1 [2]).messages = badTokenW.messages ++ [[2]]
          ∧ (badTokenW.append Pc kpW1 [2]).keys = badTokenW.keys ++ [kpW1.pub]
          ∧ (badTokenW.append Pc kpW1 [2]).signature.c.length
              = badTokenW.signature.c.length + 1) :=
  ⟨by decide, append_no_validity_check badTokenW Pc kpW1 [2] (by decide)⟩

theorem verify_append_of_lenWf {q : ℕ} (P : Prims q) (t : Token q)
    (kp : KeyPair q) (m : Msg) (hw : t.lenWf) (hkp : kp.wf P) :
    (t.append P kp m).verify P = some true := by
  obtain ⟨h1, h2⟩ := hw
  unfold KeyPair.wf at hkp
  unfold Token.verify Token.append TokenSignature.verify TokenSignature.sign
  rw [if_neg (not_not_intro (by simp [h1, h2, h1 ▸ h2]))]
  simp only [List.zip_append h2, List.zip_append h1.symm]
  simp only [List.map_append, List.map_cons, List.map_nil, List.getLast?_concat,
    add_points, reduce, List.sum_append, List.sum_cons, List.sum_nil]
  simp only [List.zip_cons_cons, List.zip_nil_right, List.zip_nil_left,
    List.map_cons, List.map_nil, List.getLast?_concat, List.sum_cons,
    List.sum_nil, Option.some.injEq, decide_eq_true_eq]
  refine congrArg P.hashPoints ?_
  simp only [List.cons.injEq, and_true]
  rw [hkp]
  exact ⟨trivial, by ring, by ring, by ring⟩

theorem verify_new_of_wf {q : ℕ} (P : Prims q) (kp : KeyPair q) (m : Msg)
    (hkp : kp.wf P) : (Token.new P kp m).verify P = some true := by
  unfold KeyPair.wf at hkp
  unfold Token.verify Token.new TokenSignature.verify TokenSignature.new
  rw [if_neg (not_not_intro (by simp))]
  simp only [List.zip_cons_cons, List.zip_nil_right, List.zip_nil_left,
    List.map_cons, List.map_nil, List.getLast?_singleton, add_points, reduce,
    List.sum_cons, List.sum_nil, Option.some.injEq, decide_eq_true_eq]
  refine congrArg P.hashPoints ?_
  simp only [List.cons.injEq, and_true]
  rw [hkp]
  exact ⟨trivial, by ring, by ring, by ring⟩

theorem build_loop_verify {q : ℕ} (P : Prims q) :
    ∀ (rest : List (KeyPair q × Msg)) (t : Token q), t.lenWf →
      t.verify P = some true → (∀ x ∈ rest, x.1.wf P) →
      (rest.foldl (fun t x => t.append P x.1 x.2) t).verify P = some true := by
  intro rest
  induction rest with
  | nil => intro t _ hv _; simpa using hv
  | cons x xs ih =>
      intro t hw _hv hall
      simp only [List.foldl_cons]
      exact ih (t.append P x.1 x.2) (lenWf_append P x.1 x.2 hw)
        (verify_append_of_lenWf P t x.1 x.2 hw (hall x (List.mem_cons_self x xs)))
        (fun y hy => hall y (List.mem_cons_of_mem x hy))

/-- C1: for every N ≥ 1, every sequence of N key pairs (satisfying the
`public = private * Generator` invariant that `KeyPair::new` guarantees)
and N messages, the token built by `Token::new` on the first pair and
message followed by N-1 `Token::append` calls satisfies
`Token::verify() == true`. -/
theorem build_verify {q : ℕ} (P : Prims q) (kp0 : KeyPair q) (m0 : Msg)
    (rest : List (KeyPair q × Msg)) (h0 : kp0.wf P)
    (hrest : ∀ x ∈ rest, x.1.wf P) :
    (Token.build P kp0 m0 rest).verify P = some true :=
  build_loop_verify P rest (Token.new P kp0 m0) (lenWf_new P kp0 m0)
    (verify_new_of_wf P kp0 m0 h0) hrest

theorem build_verify_witness :
    kpW1.wf Pc ∧ (∀ x ∈ [(kpW2, ([2] : Msg))], x.1.wf Pc)
      ∧ (Token.build Pc kpW1 [1] [(kpW2, [2])]).verify Pc = some true :=
  ⟨rfl, by intro x hx; simp only [List.mem_singleton] at hx; subst hx; rfl,
    build_verify Pc kpW1 [1] [(kpW2, [2])] rfl
      (by intro x hx; simp only [List.mem_singleton] at hx; subst hx; rfl)⟩

/-- C3: when the three lengths agree (and the chain is nonempty, so that
the `last` elements exist), `TokenSignature::verify` accepts if and only
if `HashToScalar([hashes_last, p, u, v])` equals the last stored
challenge, where `hashes_last = HashToCurve(keys.last, messages.last)`,
`p` is the sum of the keys, `u = sum(keys[i]*(-challenges[i])) +
s*Generator` and `v = w + gammaAgg + s*sum(hashes)`; no other equality
is checked. -/
theorem verify_accepts_iff {q : ℕ} (sig : TokenSignature q) (P : Prims q)
    (keys : List (ZMod q)) (msgs : List Msg)
    (hkm : keys.length = msgs.length) (hkc : keys.length = sig.c.length)
    (hc : sig.c ≠ []) :
    sig.verify P keys msgs = some true ↔
      P.hashPoints [P.hashToCurve (keys.getLastD 0) (msgs.getLastD []),
          add_points keys,
          add_points ((keys.zip sig.c).map fun x => x.1 * (-x.2)) + sig.s * P.g,
          sig.w + sig.gamma_agg
            + sig.s * add_points ((msgs.zip keys).map fun x => P.hashToCurve x.2 x.1)]
        = sig.c.getLastD 0 := by
  obtain ⟨ga, c, w, s⟩ := sig
  simp only at hkc hc
  have hkeys : keys ≠ [] := by
    intro h
    subst h
    exact hc (List.eq_nil_of_length_eq_zero hkc.symm)
  have hmsgs : msgs ≠ [] := by
    intro h
    subst h
    exact hkeys (List.eq_nil_of_length_eq_zero (by simpa using hkm))
  obtain ⟨K, a, rfl⟩ : ∃ K a, keys = K ++ [a] :=
    ⟨keys.dropLast, keys.getLast hkeys, (List.dropLast_append_getLast hkeys).symm⟩
  obtain ⟨M, b, rfl⟩ : ∃ M b, msgs = M ++ [b] :=
    ⟨msgs.dropLast, msgs.getLast hmsgs, (List.dropLast_append_getLast hmsgs).symm⟩
  obtain ⟨C, e, rfl⟩ : ∃ C e, c = C ++ [e] :=
    ⟨c.dropLast, c.getLast hc, (List.dropLast_append_getLast hc).symm⟩
  have hKM : K.length = M.length := by simpa using hkm
  have hKC : K.length = C.length := by simpa using hkc
  unfold TokenSignature.verify
  rw [if_neg (not_not_intro (by simp [hKM, hKC, hKM ▸ hKC]))]
  simp only [List.zip_append hKC, List.zip_append hKM.symm]
  simp only [List.map_append, List.map_cons, List.map_nil, List.getLast?_concat,
    List.getLastD_concat, add_points, List.sum_append, List.sum_cons,
    List.sum_nil, List.zip_cons_cons, List.zip_nil_right, List.zip_nil_left,
    Option.some.injEq, decide_eq_true_eq]

theorem verify_accepts_iff_witness :
    (token2W.keys.length = token2W.messages.length
        ∧ token2W.keys.length = token2W.signature.c.length
        ∧ token2W.signature.c ≠ [])
      ∧ (token2W.signature.verify Pc token2W.keys token2W.messages = some true ↔
          Pc.hashPoints [Pc.hashToCurve (token2W.keys.getLastD 0) (token2W.messages.getLastD []),
              add_points token2W.keys,
              add_points ((token2W.keys.zip token2W.signature.c).map fun x => x.1 * (-x.2))
                + token2W.signature.s * Pc.g,
              token2W.signature.w + token2W.signature.gamma_agg
                + token2W.signature.s
                  * add_points ((token2W.messages.zip token2W.keys).map
                      fun x => Pc.hashToCurve x.2 x.1)]
            = token2W.signature.c.getLastD 0) :=
  ⟨⟨by decide, by decide, by decide⟩,
    verify_accepts_iff token2W.signature Pc token2W.keys token2W.messages
      (by decide) (by decide) (by decide)⟩

/-- C7: every token reachable through the public constructors satisfies
`signature.c.length == keys.length == messages.length`, and each
`append` extends all three sequences by exactly one element. -/
theorem reachable_token_lengths {q : ℕ} (P : Prims q) (t : Token q)
    (h : t.Reachable P) :
    (t.signature.c.length = t.keys.length ∧ t.keys.length = t.messages.length)
      ∧ ∀ kp m, (t.append P kp m).signature.c.length = t.signature.c.length + 1
          ∧ (t.append P kp m).keys.length = t.keys.length + 1
          ∧ (t.append P kp m).messages.length = t.messages.length + 1 := by
  refine ⟨?_, fun kp m =>
    ⟨by simp [Token.append, TokenSignature.sign], by simp [Token.append],
      by simp [Token.append]⟩⟩
  induction h with
  | base kp m => simp [Token.new, TokenSignature.new]
  | step t kp m _h ih =>
      obtain ⟨ih1, ih2⟩ := ih
      simp [Token.append, TokenSignature.sign, ih1, ih2]

theorem reachable_token_lengths_witness :
    ((Token.new Pc kpW1 [1]).signature.c.length = (Token.new Pc kpW1 [1]).keys.length
        ∧ (Token.new Pc kpW1 [1]).keys.length = (Token.new Pc kpW1 [1]).messages.length)
      ∧ (((Token.new Pc kpW1 [1]).append Pc kpW2 [2]).signature.c.length
            = (Token.new Pc kpW1 [1]).signature.c.length + 1
          ∧ ((Token.new Pc kpW1 [1]).append Pc kpW2 [2]).keys.length
              = (Token.new Pc kpW1 [1]).keys.length + 1
          ∧ ((Token.new Pc kpW1 [1]).append Pc kpW2 [2]).messages.length
              = (Token.new Pc kpW1 [1]).messages.length + 1) :=
  ⟨(reachable_token_lengths Pc _ (Token.Reachable.base kpW1 [1])).1,
    (reachable_token_lengths Pc _ (Token.Reachable.base kpW1 [1])).2 kpW2 [2]⟩

theorem verify_ne_none_of_c_ne_nil {q : ℕ} (sig : TokenSignature q)
    (P : Prims q) (keys : List (ZMod q)) (msgs : List Msg)
    (hc : sig.c ≠ []) : sig.verify P keys msgs ≠ none := by
  unfold TokenSignature.verify
  by_cases hcond : keys.length = msgs.length ∧ keys.length = sig.c.length
  · rw [if_neg (not_not_intro hcond)]
    obtain ⟨hkm, hkc⟩ := hcond
    have hhne : ((msgs.zip keys).map fun x => P.hashToCurve x.2 x.1) ≠ [] := by
      have : 0 < sig.c.length := List.length_pos.mpr hc
      simp only [ne_eq, ← List.length_pos, List.length_map, List.length_zip]
      omega
    obtain ⟨a, ha⟩ := Option.isSome_iff_exists.mp (List.getLast?_isSome.mpr hhne)
    obtain ⟨e, he⟩ := Option.isSome_iff_exists.mp (List.getLast?_isSome.mpr hc)
    simp only [ha, he]
    simp
  · rw [if_pos hcond]
    simp

/-- C9: every `TokenSignature` produced by the public API has a
challenge vector of length at least 1, and under this invariant
`TokenSignature::verify` never reaches the panicking `.unwrap()` calls
(it never returns `none` in the embedding): empty key/message inputs
always fail the preceding length check. -/
theorem reachable_sig_safe {q : ℕ} (P : Prims q) (sig : TokenSignature q)
    (h : sig.Reachable P) :
    1 ≤ sig.c.length ∧ ∀ keys msgs, sig.verify P keys msgs ≠ none := by
  have hlen : 1 ≤ sig.c.length := by
    induction h with
    | base kp m => simp [TokenSignature.new]
    | step sig keys msgs kp m _h _ih => simp [TokenSignature.sign]
  exact ⟨hlen, fun keys msgs =>
    verify_ne_none_of_c_ne_nil sig P keys msgs
      (List.length_pos.mp (by omega))⟩

theorem reachable_sig_safe_witness :
    1 ≤ (TokenSignature.new Pc kpW1 [1]).c.length
      ∧ (TokenSignature.new Pc kpW1 [1]).verify Pc [] [] ≠ none :=
  ⟨(reachable_sig_safe Pc _ (TokenSignature.Reachable.base kpW1 [1])).1,
    (reachable_sig_safe Pc _ (TokenSignature.Reachable.base kpW1 [1])).2 [] []⟩

/-- C2 (evaluation of the code at the failing input): in the
`tests::change_message` scenario a two-link token whose second stored
message was replaced without recomputing the signature fails
verification, but the token obtained by a further `Token::append` on the
tampered token verifies `true` again — `sign` recomputes the new
challenge from the current (tampered) chain data and `verify` checks
only the last challenge, so the extension "heals" the chain, against
the claim and against the repository's own test assertion. -/
theorem tamper_then_append_heals :
    tamperedW.verify Pc = some false ∧ token3W.verify Pc = some true := by
  constructor
  · decide
  · decide

end BiscuitVRF
